import Mathlib

/-!
Shallow embedding of `src/models/UpdateManager.py` (gearlever update-resolution
subsystem) and verification of its specification claims.

Network effects (HTTP responses, the GitHub release payload, the system
architecture string) are passed in as explicit arguments; pure string and
list manipulation is translated directly from the Python source.
-/

namespace UpdateManagerModel

/-- The set of characters Python's `\s` (and `str.strip()`) treats as
whitespace, restricted to ASCII: space, tab, newline, carriage return,
vertical tab, form feed. -/
def isPySpace (c : Char) : Bool :=
  c = ' ' || c = '\t' || c = '\n' || c = '\r' || c = '\x0b' || c = '\x0c'

/-- Python `str.strip()`: drop leading and trailing whitespace. -/
def pyStrip (s : List Char) : List Char :=
  ((s.dropWhile isPySpace).reverse.dropWhile isPySpace).reverse

/-- Python `str.split(sep)` for a one-character separator. -/
def pySplit (sep : Char) (s : List Char) : List (List Char) :=
  match s with
  | [] => [[]]
  | c :: rest =>
    let r := pySplit sep rest
    if c = sep then
      [] :: r
    else
      match r with
      | [] => [[c]]
      | g :: gs => (c :: g) :: gs

/-- `GithubUpdater.get_url_data` success record: the dict
`{username, repo, release, filename, tag_name}`. -/
structure GhUrlData where
  username : List Char
  repo : List Char
  release : List Char
  filename : List Char
  tag_name : List Char
  deriving Repr, DecidableEq

/-- Not a netloc terminator (`/`, `?`, `#`). -/
def notSlashQH (c : Char) : Bool := !(c == '/' || c == '?' || c == '#')

/-- Not a query/fragment starter (`?`, `#`). -/
def notQH (c : Char) : Bool := !(c == '?' || c == '#')

/-- `urllib.parse.urlsplit` restricted to what `get_url_data` reads from it:
given the text after the `https://` scheme marker, the netloc is everything up
to the first `/`, `?` or `#`, and the path runs from there up to the first
`?` or `#`. -/
def splitNetlocPath (rest : List Char) : List Char × List Char :=
  let netloc := rest.takeWhile notSlashQH
  let after := rest.dropWhile notSlashQH
  let path := after.takeWhile notQH
  (netloc, path)

/-- A path segment of a canonical GitHub release URL: free of the
segment/query delimiters and of `|` (which the parser later splits on). -/
def urlSegOk (s : List Char) : Prop :=
  (∀ c ∈ s, notSlashQH c = true) ∧ '|' ∉ s

def httpsMarker : List Char := "https://".toList

/-- The final `url.split('|')` step of `get_url_data`: exactly 5 fields,
or failure.  `tag` is the `tag_name` established earlier ( `*` for the
pipe form, path segment 5 for a release URL). -/
def pipeParse (u tag : List Char) : Option GhUrlData :=
  if h : (pySplit '|' u).length = 5 then
    some { username := (pySplit '|' u)[1], repo := (pySplit '|' u)[2],
           release := (pySplit '|' u)[3], filename := (pySplit '|' u)[4],
           tag_name := tag }
  else none

/-- The path-segment checks of `get_url_data` for an `https://` URL:
exactly 7 `/`-split segments shaped `.../releases/download/...`, rebuilt
into the `f'|{paths[1]}|{paths[2]}|latest|{paths[6]}'` pipe string with
`tag_name = paths[5]`. -/
def ghPathParse (paths : List (List Char)) : Option GhUrlData :=
  if h7 : paths.length = 7 then
    if paths[3] = "releases".toList ∧ paths[4] = "download".toList then
      pipeParse ('|' :: (paths[1] ++ '|' :: (paths[2] ++ '|' ::
        ("latest".toList ++ '|' :: paths[6])))) paths[5]
    else none
  else none

/-- `GithubUpdater.get_url_data`.  Python returns `False` on failure and a
dict on success; embedded as `Option GhUrlData`. -/
def get_url_data (url : List Char) : Option GhUrlData :=
  if httpsMarker.isPrefixOf url then
    if (splitNetlocPath (url.drop 8)).1 = "github.com".toList then
      ghPathParse (pySplit '/' ((splitNetlocPath (url.drop 8)).2))
    else none
  else
    pipeParse url ('*' :: [])

/-- `GithubUpdater.can_handle_link`: `get_url_data(url) != False`. -/
def ghCanHandleLink (url : List Char) : Bool :=
  (get_url_data url).isSome

/-! ### `UpdateManagerChecker.check_app`: embedded metadata extraction

The Python code runs two `re.search` calls over the flattened `readelf`
output.  The regex engine's leftmost-match rule is embedded as a minimal
first index, and greedy `.*` as a maximal end position. -/

/-- `readelf_out.replace('\n', ' ') + ' '`. -/
def flattenDump (dump : List Char) : List Char :=
  (dump.map (fun c => if c = '\n' then ' ' else c)) ++ [' ']

/-- Whether the pattern occurs in `cs` starting at index `i`. -/
def occursAt (pat cs : List Char) (i : Nat) : Bool :=
  pat.isPrefixOf (cs.drop i)

/-- Smallest index `< n` satisfying `p` (regex leftmost match). -/
def findFirstIdx (p : Nat → Bool) : Nat → Option Nat
  | 0 => none
  | n + 1 =>
    match findFirstIdx p n with
    | some i => some i
    | none => if p n then some n else none

/-- Largest index `< n` satisfying `p` (greedy `.*` backtracking). -/
def findLastBelow (p : Nat → Bool) : Nat → Option Nat
  | 0 => none
  | n + 1 => if p n then some n else findLastBelow p n

def ghLit : List Char := "gh-releases-zsync|".toList

def zsyncLit : List Char := "zsync".toList

/-- `UpdateManagerChecker.check_app` on the raw `readelf` output.
`pattern_gh = r"gh-releases-zsync\|.*(.zsync)"` matches from the leftmost
occurrence of the literal `gh-releases-zsync|` (at `i`) to the greedy,
rightmost occurrence of any character followed by `zsync` (the `.zsync`
group starts at `p - 1 ≥ i + 18`, so `p ≥ i + 19`); the flattened dump is
newline-free, so `.` never fails.  `pattern_link = r"^zsync\|http(.*)\s"`
is anchored at position 0 and its greedy `(.*)\s` ends at the last
whitespace at index `≥ 10`; the match then loses its 6-character `zsync|`
prefix (`re.sub`) and both results are stripped. -/
def check_app (dump : List Char) : Option (List Char) :=
  let cs := flattenDump dump
  let n := cs.length
  let ghBranch : Option (List Char) :=
    match findFirstIdx (fun i => occursAt ghLit cs i) n with
    | some i =>
      match findLastBelow (fun p => decide (i + 19 ≤ p) && occursAt zsyncLit cs p) n with
      | some p => some (pyStrip ((cs.take (p + 5)).drop i))
      | none => none
    | none => none
  match ghBranch with
  | some r => some r
  | none =>
    if "zsync|http".toList.isPrefixOf cs then
      match findLastBelow (fun m => decide (10 ≤ m) && isPySpace (cs.getD m 'x')) n with
      | some m => some (pyStrip ((cs.take (m + 1)).drop 6))
      | none => none
    else none

/-! ### `UpdateManagerChecker.check_url`: dispatch

The three `UpdateManager` subclasses, in the order returned by
`get_models()`.  Their `can_handle_link` checks hit the network for the
static and dynamic variants, so the dispatcher is parameterised by a
`canHandle` oracle; `embedded_app_data` (the `check_app` result when an
app element is supplied) is likewise passed in.  The result records which
class was instantiated, the string it was constructed from, and the
`embedded` flag. -/

inductive Variant
  | staticFile
  | dynamic
  | github
  deriving DecidableEq, Repr

/-- `UpdateManagerChecker.get_models()`. -/
def allModels : List Variant := [.staticFile, .dynamic, .github]

/-- Candidate list after the optional `model` narrowing filter. -/
def modelsFor (forced : Option Variant) : List Variant :=
  match forced with
  | some f => allModels.filter (fun m => m = f)
  | none => allModels

/-- `UpdateManagerChecker.check_url`. -/
def check_url (canHandle : Variant → List Char → Bool)
    (url embeddedData : Option (List Char)) (forced : Option Variant) :
    Option (Variant × List Char × Bool) :=
  let models := modelsFor forced
  let embeddedHit : Option (Variant × List Char × Bool) :=
    match embeddedData with
    | some d => (models.find? (fun m => canHandle m d)).map (fun m => (m, d, true))
    | none => none
  match embeddedHit with
  | some r => some r
  | none =>
    match url with
    | some u => (models.find? (fun m => canHandle m u)).map (fun m => (m, u, false))
    | none => none

/-! ### `StaticFileUpdater`: headers, update check, download -/

/-- An HTTP response as far as `get_url_headers` inspects it.  A request
that throws before producing a response (network failure) is modelled as
`none` at the call sites. -/
structure HttpResp where
  status : Nat
  headers : List (List Char × List Char)
  deriving DecidableEq, Repr

/-- `requests.Response.raise_for_status` throws exactly for 4xx/5xx. -/
def raiseForStatusFails (s : Nat) : Bool :=
  decide (400 ≤ s) && decide (s < 600)

/-- `StaticFileUpdater.get_url_headers`: HEAD first; on a request
exception or `raise_for_status` error, retry with a streamed GET; empty
headers when both fail.  Both try/except blocks swallow every exception,
so the function always returns. -/
def get_url_headers (headResp getResp : Option HttpResp) :
    List (List Char × List Char) :=
  let tryGet : List (List Char × List Char) :=
    match getResp with
    | some r => if raiseForStatusFails r.status then [] else r.headers
    | none => []
  match headResp with
  | some r => if raiseForStatusFails r.status then tryGet else r.headers
  | none => tryGet

/-- `StaticFileUpdater.is_update_available`:
`int(headers.get('content-length', '0'))` compared with
`os.path.getsize(el.file_path)`. -/
def static_is_update_available (contentLength : Option Nat) (oldSize : Nat) : Bool :=
  let resp_cl := contentLength.getD 0
  if resp_cl = 0 then false else decide (resp_cl ≠ oldSize)

/-- The `content-length` and `etag` headers of the streamed GET answered
inside `StaticFileUpdater.download`. -/
structure DlHeaders where
  contentLength : Option Nat
  etag : Option (List Char)
  deriving DecidableEq, Repr

/-- `.Models.DownloadInterruptedException`. -/
inductive DownloadInterruptedException
  | mk
  deriving DecidableEq, Repr

/-- The progress-callback values produced by the chunk loop of
`StaticFileUpdater.download`: `status += block_size` (1024) after every
chunk regardless of its real length, then `status_update_cb(status /
total_size)` whenever `total_size` is non-zero. -/
def dlCallbacks (total_size : Nat) : List Nat → Nat → List ℚ
  | [], _ => []
  | _ :: rest, status =>
    let status' := status + 1024
    if total_size = 0 then dlCallbacks total_size rest status'
    else ((status' : ℚ) / (total_size : ℚ)) :: dlCallbacks total_size rest status'

/-- `StaticFileUpdater.download`, driven by the sizes of the chunks that
`iter_content(1024)` yields.  Returns the emitted progress fractions and
either `DownloadInterruptedException` (final file size below the
advertised `content-length`) or `(fname, etag)`. -/
def download (headers : DlHeaders) (fname : List Char) (chunks : List Nat) :
    List ℚ × Except DownloadInterruptedException (List Char × List Char) :=
  let total_size := headers.contentLength.getD 0
  let etag := headers.etag.getD []
  (dlCallbacks total_size chunks 0,
   if chunks.sum < total_size then .error .mk else .ok (fname, etag))

/-! ### `GithubUpdater`: glob matching and asset resolution -/

/-- `convert_glob_to_regex` + `re.match`: the glob is compiled to
`'^' + converted + '$'` where `*` becomes `.*` and every other character
is `re.escape`d to a literal.  `.*` matches any run of non-newline
characters; `$` also accepts a single trailing newline. -/
def globMatch : List Char → List Char → Bool
  | [], s => s.isEmpty || s = ['\n']
  | '*' :: ps, s =>
    (List.range (s.length + 1)).any (fun k =>
      ((s.take k).all (fun c => ¬(c = '\n'))) && globMatch ps (s.drop k))
  | _ :: _, [] => false
  | c :: ps, d :: rest => c = d && globMatch ps rest

def sepChar (c : Char) : Bool := c = '-' || c = '_' || c = '.'

/-- A token occurrence bounded by `-`, `_` or `.` on both sides,
starting (with its left separator) at index `i`. -/
def boundedTokenAt (tok s : List Char) (i : Nat) : Bool :=
  match s.drop i with
  | [] => false
  | c :: rest =>
    sepChar c && tok.isPrefixOf rest &&
      (match rest.drop tok.length with
       | d :: _ => sepChar d
       | [] => false)

def hasBoundedToken (tok s : List Char) : Bool :=
  (List.range s.length).any (boundedTokenAt tok s)

/-- `is_x86 = re.compile(r'(\-|\_|\.)x86(\-|\_|\.)')`, used with `.search`. -/
def isX86Name (s : List Char) : Bool := hasBoundedToken "x86".toList s

/-- `is_arm = re.compile(r'(\-|\_|\.)(arm64|aarch64|armv7l)(\-|\_|\.)')`. -/
def isArmName (s : List Char) : Bool :=
  hasBoundedToken "arm64".toList s || hasBoundedToken "aarch64".toList s ||
    hasBoundedToken "armv7l".toList s

/-- One entry of `rel_data['assets']` as `fetch_target_asset` reads it. -/
structure Asset where
  name : List Char
  browser_download_url : List Char
  id : Nat
  size : Nat
  content_type : List Char
  deriving DecidableEq, Repr

def endsWithDotZsync (n : List Char) : Bool :=
  ".zsync".toList.isSuffixOf n

/-- `re.sub(r'\.zsync$', '', name)`. -/
def stripZsync (n : List Char) : List Char :=
  if endsWithDotZsync n then n.take (n.length - 6) else n

/-- The `possible_targets` accumulation loop: in embedded mode, the first
asset whose name matches the glob and ends in `.zsync` (the loop breaks
with a singleton); otherwise every asset whose name matches the glob. -/
def possibleTargets (assets : List Asset) (embedded : Bool) (fnamePat : List Char) :
    List Asset :=
  if embedded then
    match assets.find? (fun a => globMatch fnamePat a.name && endsWithDotZsync a.name) with
    | some a => [a]
    | none => []
  else
    assets.filter (fun a => globMatch fnamePat a.name)

/-- The `zsync_file` selection: a unique candidate is taken directly;
otherwise, only on an `x86_64` system, the first candidate whose name
carries a bounded `x86` marker or carries no bounded ARM marker. -/
def selectTarget (possible : List Asset) (arch : List Char) : Option Asset :=
  if possible.length = 1 then possible.head?
  else if arch = "x86_64".toList then
    possible.find? (fun t => isX86Name t.name || !(isArmName t.name))
  else none

/-- `GithubUpdater.fetch_target_asset`, given the release payload
(`tag_name` and `assets`) returned by the GitHub API and the system
architecture string; an API/HTTP failure short-circuits to `None` before
any of this runs.  After selection the `.zsync` suffix is stripped and
the result looked up again by exact name. -/
def fetch_target_asset (ud : GhUrlData) (relTagName : List Char)
    (assets : List Asset) (embedded : Bool) (arch : List Char) : Option Asset :=
  if !(globMatch ud.tag_name relTagName) then none
  else
    match selectTarget (possibleTargets assets embedded ud.filename) arch with
    | none => none
    | some z => assets.find? (fun a => a.name = stripZsync z.name)

/-! ## Helper lemmas -/

theorem pySplit_no_sep {sep : Char} : ∀ {a : List Char}, sep ∉ a →
    pySplit sep a = [a] := by
  intro a
  induction a with
  | nil => intro _; rfl
  | cons c cs ih =>
    intro h
    have hc : ¬(c = sep) := fun he => h (he ▸ List.mem_cons_self c cs)
    have hcs : sep ∉ cs := fun hm => h (List.mem_cons_of_mem c hm)
    simp [pySplit, ih hcs, hc]

theorem pySplit_sep_append {sep : Char} : ∀ {a rest : List Char}, sep ∉ a →
    pySplit sep (a ++ sep :: rest) = a :: pySplit sep rest := by
  intro a
  induction a with
  | nil =>
    intro rest _
    simp [pySplit]
  | cons c cs ih =>
    intro rest h
    have hc : ¬(c = sep) := fun he => h (he ▸ List.mem_cons_self c cs)
    have hcs : sep ∉ cs := fun hm => h (List.mem_cons_of_mem c hm)
    have hstep := @ih rest hcs
    simp [pySplit, hstep, hc]

theorem isPrefixOf_append_self : ∀ (a b : List Char),
    a.isPrefixOf (a ++ b) = true := by
  intro a
  induction a with
  | nil => intro b; cases b <;> rfl
  | cons c cs ih =>
    intro b
    simp [List.isPrefixOf, ih b]

theorem length_le_of_isPrefixOf : ∀ {a b : List Char},
    a.isPrefixOf b = true → a.length ≤ b.length := by
  intro a
  induction a with
  | nil => intro b _; exact Nat.zero_le _
  | cons c cs ih =>
    intro b h
    cases b with
    | nil => simp [List.isPrefixOf] at h
    | cons d ds =>
      simp only [List.isPrefixOf, Bool.and_eq_true, beq_iff_eq] at h
      exact Nat.succ_le_succ (ih h.2)

theorem takeWhile_append_of_all {p : Char → Bool} : ∀ {a b : List Char},
    (∀ c ∈ a, p c = true) → (a ++ b).takeWhile p = a ++ b.takeWhile p := by
  intro a
  induction a with
  | nil => intro b _; rfl
  | cons c cs ih =>
    intro b h
    have hc : p c = true := h c (List.mem_cons_self c cs)
    have hcs : ∀ x ∈ cs, p x = true := fun x hx => h x (List.mem_cons_of_mem c hx)
    simp only [List.cons_append, List.takeWhile_cons, hc, ih hcs]
    rfl

theorem dropWhile_append_of_all {p : Char → Bool} : ∀ {a b : List Char},
    (∀ c ∈ a, p c = true) → (a ++ b).dropWhile p = b.dropWhile p := by
  intro a
  induction a with
  | nil => intro b _; rfl
  | cons c cs ih =>
    intro b h
    have hc : p c = true := h c (List.mem_cons_self c cs)
    have hcs : ∀ x ∈ cs, p x = true := fun x hx => h x (List.mem_cons_of_mem c hx)
    simp only [List.cons_append, List.dropWhile_cons, hc, ih hcs]
    rfl

theorem takeWhile_all {p : Char → Bool} {a : List Char}
    (h : ∀ c ∈ a, p c = true) : a.takeWhile p = a := by
  have := @takeWhile_append_of_all p a [] h
  simpa using this

theorem findFirstIdx_eq_none {p : Nat → Bool} : ∀ {n : Nat},
    (∀ i, i < n → p i = false) → findFirstIdx p n = none := by
  intro n
  induction n with
  | zero => intro _; rfl
  | succ m ih =>
    intro h
    have hm : findFirstIdx p m = none := ih (fun i hi => h i (Nat.lt_succ_of_lt hi))
    have hpm : p m = false := h m (Nat.lt_succ_self m)
    simp [findFirstIdx, hm, hpm]

theorem findFirstIdx_eq_some {p : Nat → Bool} : ∀ {n i : Nat}, i < n →
    p i = true → (∀ j, j < i → p j = false) → findFirstIdx p n = some i := by
  intro n
  induction n with
  | zero => intro i hi; exact absurd hi (Nat.not_lt_zero i)
  | succ m ih =>
    intro i hi hpi hmin
    rcases Nat.lt_succ_iff_lt_or_eq.mp hi with hlt | heq
    · simp only [findFirstIdx, ih hlt hpi hmin]
    · have hm : findFirstIdx p m = none :=
        findFirstIdx_eq_none (fun j hj => hmin j (heq ▸ hj))
      have hpm : p m = true := heq ▸ hpi
      simp [findFirstIdx, hm, hpm, heq]

theorem findLastBelow_eq_some {p : Nat → Bool} : ∀ {n i : Nat}, i < n →
    p i = true → (∀ j, j < n → i < j → p j = false) → findLastBelow p n = some i := by
  intro n
  induction n with
  | zero => intro i hi; exact absurd hi (Nat.not_lt_zero i)
  | succ m ih =>
    intro i hi hpi hmax
    rcases Nat.lt_succ_iff_lt_or_eq.mp hi with hlt | heq
    · have hpm : p m = false := hmax m (Nat.lt_succ_self m) hlt
      simp only [findLastBelow, hpm, Bool.false_eq_true, if_false]
      exact ih hlt hpi (fun j hj hij => hmax j (Nat.lt_succ_of_lt hj) hij)
    · have hpm : p m = true := heq ▸ hpi
      simp [findLastBelow, hpm, heq]

theorem occursAt_lt {pat cs : List Char} {i : Nat} (hne : pat ≠ [])
    (h : occursAt pat cs i = true) : i < cs.length := by
  by_contra hge
  have hdrop : cs.drop i = [] := List.drop_eq_nil_of_le (Nat.le_of_not_lt hge)
  rw [occursAt, hdrop] at h
  cases pat with
  | nil => exact hne rfl
  | cons c rest => simp [List.isPrefixOf] at h

theorem notQH_of_notSlashQH {c : Char} (h : notSlashQH c = true) : notQH c = true := by
  simp only [notSlashQH, Bool.not_eq_true', Bool.or_eq_false_iff] at h
  simp [notQH, h.1.2, h.2]

theorem slash_not_mem_of_segOk {s : List Char} (h : ∀ c ∈ s, notSlashQH c = true) :
    '/' ∉ s := by
  intro hm
  have := h '/' hm
  simp [notSlashQH] at this

theorem pipeParse_of_split {u tag a b c d e : List Char}
    (h : pySplit '|' u = [a, b, c, d, e]) :
    pipeParse u tag = some ⟨b, c, d, e, tag⟩ := by
  have h5 : (pySplit '|' u).length = 5 := by rw [h]; rfl
  simp only [pipeParse]
  rw [dif_pos h5]
  simp [h]

theorem ghPathParse_seven {o r t f : List Char} (ho : '|' ∉ o) (hr : '|' ∉ r)
    (hf : '|' ∉ f) :
    ghPathParse [[], o, r, "releases".toList, "download".toList, t, f] =
      some ⟨o, r, "latest".toList, f, t⟩ := by
  have h7 : ([[], o, r, "releases".toList, "download".toList, t, f] :
      List (List Char)).length = 7 := rfl
  have hlat : '|' ∉ "latest".toList := by decide
  have hpipe : pySplit '|' ('|' :: (o ++ '|' :: (r ++ '|' ::
      ("latest".toList ++ '|' :: f)))) = [[], o, r, "latest".toList, f] := by
    have hstep : pySplit '|' ('|' :: (o ++ '|' :: (r ++ '|' ::
        ("latest".toList ++ '|' :: f)))) =
        [] :: pySplit '|' (o ++ '|' :: (r ++ '|' :: ("latest".toList ++ '|' :: f))) := by
      simp [pySplit]
    rw [hstep, pySplit_sep_append ho, pySplit_sep_append hr,
        pySplit_sep_append hlat, pySplit_no_sep hf]
  simp only [ghPathParse]
  rw [dif_pos h7, if_pos ⟨rfl, rfl⟩]
  show pipeParse ('|' :: (o ++ '|' :: (r ++ '|' :: ("latest".toList ++ '|' :: f)))) t =
    some ⟨o, r, "latest".toList, f, t⟩
  exact pipeParse_of_split hpipe

theorem isPrefixOf_getD : ∀ {pat l : List Char}, pat.isPrefixOf l = true →
    ∀ k, k < pat.length → l.getD k 'x' = pat.getD k 'x' := by
  intro pat
  induction pat with
  | nil => intro l _ k hk; simp at hk
  | cons a as ih =>
    intro l h k hk
    cases l with
    | nil => simp [List.isPrefixOf] at h
    | cons b bs =>
      simp only [List.isPrefixOf, Bool.and_eq_true, beq_iff_eq] at h
      cases k with
      | zero => simp [List.getD, h.1]
      | succ kk =>
        simp only [List.getD_cons_succ]
        exact ih h.2 kk (by simpa using hk)

theorem getD_append_singleton (l : List Char) (x : Char) :
    (l ++ [x]).getD l.length 'x' = x := by
  induction l with
  | nil => rfl
  | cons c cst ih =>
    simp [List.getD_cons_succ, ih]

theorem dlCallbacks_total_zero : ∀ (chunks : List Nat) (status : Nat),
    dlCallbacks 0 chunks status = [] := by
  intro chunks
  induction chunks with
  | nil => intro s; rfl
  | cons c rest ih => intro s; simp [dlCallbacks, ih]

theorem dlCallbacks_closed {total : Nat} (ht : total ≠ 0) :
    ∀ (chunks : List Nat) (status : Nat),
    dlCallbacks total chunks status =
      (List.range chunks.length).map
        (fun k : Nat => ((status : ℚ) + ((k : ℚ) + 1) * 1024) / (total : ℚ)) := by
  intro chunks
  induction chunks with
  | nil => intro s; rfl
  | cons c rest ih =>
    intro s
    rw [dlCallbacks]
    rw [if_neg ht, ih (s + 1024), List.length_cons, List.range_succ_eq_map]
    simp only [List.map_cons, List.map_map]
    congr 1
    · push_cast
      ring
    · refine List.map_congr_left ?_
      intro a _
      simp only [Function.comp]
      push_cast
      ring

/-! ## Claim theorems -/

/-- C6: `StaticFileUpdater.is_update_available` reports `false` when the
fetched headers carry no `content-length` or report it as `0`; otherwise
it reports `true` exactly when the remote length differs from the
artifact's on-disk size. -/
theorem static_update_available_spec :
    (∀ old : Nat, static_is_update_available none old = false ∧
       static_is_update_available (some 0) old = false) ∧
    (∀ n old : Nat, n ≠ 0 →
       (static_is_update_available (some n) old = true ↔ n ≠ old)) := by
  constructor
  · intro old; exact ⟨rfl, rfl⟩
  · intro n old hn
    simp [static_is_update_available, hn]

/-- Witness for C6 at remote size 5 against local size 3. -/
theorem static_update_available_spec_witness :
    static_is_update_available (some 5) 3 = true := by
  exact (static_update_available_spec.2 5 3 (by decide)).mpr (by decide)

/-- C3: `StaticFileUpdater.download` raises
`DownloadInterruptedException` exactly when the written bytes fall short
of the advertised `content-length`, and otherwise returns the file path
together with the response etag, defaulting to the empty string. -/
theorem download_size_check (cl : Option Nat) (etag : Option (List Char))
    (fname : List Char) (chunks : List Nat) :
    (chunks.sum < cl.getD 0 →
       (download ⟨cl, etag⟩ fname chunks).2 = .error .mk) ∧
    (cl.getD 0 ≤ chunks.sum →
       (download ⟨cl, etag⟩ fname chunks).2 = .ok (fname, etag.getD [])) := by
  constructor
  · intro h; simp [download, h]
  · intro h
    have hnot : ¬(chunks.sum < cl.getD 0) := by omega
    simp [download, hnot]

/-- Witness for C3: a 1000-byte advertisement with only 900 delivered
bytes fails; a fully delivered transfer returns the path and etag. -/
theorem download_size_check_witness :
    (download ⟨some 1000, none⟩ [] [900]).2 = .error .mk ∧
    (download ⟨some 1000, some ['E']⟩ [] [1024]).2 = .ok ([], ['E']) := by
  exact ⟨(download_size_check (some 1000) none [] [900]).1 (by decide),
         (download_size_check (some 1000) (some ['E']) [] [1024]).2 (by decide)⟩

/-- C9 counterexample: the claim says any non-2xx HEAD status triggers
the GET fallback, but `raise_for_status` only throws for 4xx/5xx.  A
HEAD answer with status 304 (non-2xx) is kept and the GET headers are
ignored. -/
theorem get_url_headers_304_counterexample :
    get_url_headers (some ⟨304, [(['e'], ['a'])]⟩) (some ⟨200, [(['e'], ['b'])]⟩)
      = [(['e'], ['a'])] ∧
    ¬(200 ≤ 304 ∧ 304 < 300) ∧
    ([(['e'], ['a'])] : List (List Char × List Char)) ≠ [(['e'], ['b'])] := by
  refine ⟨by decide, by decide, by decide⟩

/-- C9 (amended): `get_url_headers` never raises (it is total); a HEAD
answer whose status is outside 4xx/5xx is returned directly; on a HEAD
network failure or 4xx/5xx status it falls back to the streamed GET; the
result is empty when both attempts fail. -/
theorem get_url_headers_amended (headResp getResp : Option HttpResp) :
    (∀ r, headResp = some r → raiseForStatusFails r.status = false →
       get_url_headers headResp getResp = r.headers) ∧
    ((headResp = none ∨ ∃ r, headResp = some r ∧ raiseForStatusFails r.status = true) →
       ((∀ g, getResp = some g → raiseForStatusFails g.status = false →
          get_url_headers headResp getResp = g.headers) ∧
        ((getResp = none ∨ ∃ g, getResp = some g ∧ raiseForStatusFails g.status = true) →
          get_url_headers headResp getResp = []))) := by
  constructor
  · rintro r rfl hst
    simp [get_url_headers, hst]
  · intro hhead
    constructor
    · rintro g rfl hg
      rcases hhead with rfl | ⟨r, rfl, hst⟩ <;> simp [get_url_headers, hg, *]
    · intro hget
      rcases hhead with rfl | ⟨r, rfl, hst⟩ <;>
        rcases hget with rfl | ⟨g, rfl, hg⟩ <;> simp [get_url_headers, *]

/-- Witness for C9: a failed HEAD with a 200 GET yields the GET headers. -/
theorem get_url_headers_amended_witness :
    get_url_headers none (some ⟨200, [(['x'], ['y'])]⟩) = [(['x'], ['y'])] := by
  exact ((get_url_headers_amended none (some ⟨200, [(['x'], ['y'])]⟩)).2
    (Or.inl rfl)).1 ⟨200, [(['x'], ['y'])]⟩ rfl (by decide)

/-- C10: any 5-field pipe string that does not start with `https://`
parses successfully, whatever its leading field holds; the
`gh-releases-zsync` tag is never validated, and `can_handle_link`
accepts the string. -/
theorem leading_field_unvalidated (t0 o r sel f : List Char)
    (h0 : httpsMarker.isPrefixOf
      (t0 ++ '|' :: (o ++ '|' :: (r ++ '|' :: (sel ++ '|' :: f)))) = false)
    (ht : '|' ∉ t0) (ho : '|' ∉ o) (hr : '|' ∉ r) (hs : '|' ∉ sel) (hf : '|' ∉ f) :
    get_url_data (t0 ++ '|' :: (o ++ '|' :: (r ++ '|' :: (sel ++ '|' :: f)))) =
      some ⟨o, r, sel, f, ['*']⟩ ∧
    ghCanHandleLink (t0 ++ '|' :: (o ++ '|' :: (r ++ '|' :: (sel ++ '|' :: f)))) = true := by
  have hsplit : pySplit '|' (t0 ++ '|' :: (o ++ '|' :: (r ++ '|' :: (sel ++ '|' :: f)))) =
      [t0, o, r, sel, f] := by
    rw [pySplit_sep_append ht, pySplit_sep_append ho, pySplit_sep_append hr,
        pySplit_sep_append hs, pySplit_no_sep hf]
  have hmain : get_url_data (t0 ++ '|' :: (o ++ '|' :: (r ++ '|' :: (sel ++ '|' :: f)))) =
      some ⟨o, r, sel, f, ['*']⟩ := by
    simp only [get_url_data]
    rw [if_neg (by rw [h0]; exact Bool.false_ne_true)]
    exact pipeParse_of_split hsplit
  exact ⟨hmain, by simp [ghCanHandleLink, hmain]⟩

/-- Witness for C10: `a|b|c|d|e` is accepted as a GitHub descriptor with
owner `b` and repo `c`. -/
theorem leading_field_unvalidated_witness :
    get_url_data "a|b|c|d|e".toList = some ⟨['b'], ['c'], ['d'], ['e'], ['*']⟩ ∧
    ghCanHandleLink "a|b|c|d|e".toList = true := by
  have h := leading_field_unvalidated ['a'] ['b'] ['c'] ['d'] ['e']
    (by decide) (by decide) (by decide) (by decide) (by decide) (by decide)
  exact h

/-- C5: `GithubUpdater.get_url_data` maps a 5-field pipe descriptor to
its fields with tag pattern `*`; maps a canonical
`https://github.com/O/R/releases/download/T/F` URL to
`{owner, repo, "latest", filename, tag}`; and rejects any `https://` URL
with a non-`github.com` host or a path whose segment count is not 7. -/
theorem github_url_parse :
    (∀ o r sel f : List Char, '|' ∉ o → '|' ∉ r → '|' ∉ sel → '|' ∉ f →
       get_url_data ("gh-releases-zsync".toList ++
           '|' :: (o ++ '|' :: (r ++ '|' :: (sel ++ '|' :: f)))) =
         some ⟨o, r, sel, f, ['*']⟩) ∧
    (∀ o r t f : List Char, urlSegOk o → urlSegOk r → urlSegOk t → urlSegOk f →
       get_url_data (httpsMarker ++ ("github.com".toList ++
           '/' :: (o ++ '/' :: (r ++ '/' :: ("releases".toList ++
             '/' :: ("download".toList ++ '/' :: (t ++ '/' :: f))))))) =
         some ⟨o, r, "latest".toList, f, t⟩) ∧
    (∀ url : List Char, httpsMarker.isPrefixOf url = true →
       ((splitNetlocPath (url.drop 8)).1 ≠ "github.com".toList →
          get_url_data url = none) ∧
       ((pySplit '/' (splitNetlocPath (url.drop 8)).2).length ≠ 7 →
          get_url_data url = none)) := by
  refine ⟨?_, ?_, ?_⟩
  · -- pipe form
    intro o r sel f ho hr hs hf
    have h0 : httpsMarker.isPrefixOf ("gh-releases-zsync".toList ++
        '|' :: (o ++ '|' :: (r ++ '|' :: (sel ++ '|' :: f)))) = false := rfl
    have ht : '|' ∉ "gh-releases-zsync".toList := by decide
    have hsplit : pySplit '|' ("gh-releases-zsync".toList ++
        '|' :: (o ++ '|' :: (r ++ '|' :: (sel ++ '|' :: f)))) =
        ["gh-releases-zsync".toList, o, r, sel, f] := by
      rw [pySplit_sep_append ht, pySplit_sep_append ho, pySplit_sep_append hr,
          pySplit_sep_append hs, pySplit_no_sep hf]
    simp only [get_url_data]
    rw [if_neg (by rw [h0]; exact Bool.false_ne_true)]
    exact pipeParse_of_split hsplit
  · -- canonical github URL
    intro o r t f hO hR hT hF
    have hpre : httpsMarker.isPrefixOf (httpsMarker ++ ("github.com".toList ++
        '/' :: (o ++ '/' :: (r ++ '/' :: ("releases".toList ++
          '/' :: ("download".toList ++ '/' :: (t ++ '/' :: f))))))) = true :=
      isPrefixOf_append_self _ _
    have hdrop : (httpsMarker ++ ("github.com".toList ++
        '/' :: (o ++ '/' :: (r ++ '/' :: ("releases".toList ++
          '/' :: ("download".toList ++ '/' :: (t ++ '/' :: f))))))).drop 8 =
        "github.com".toList ++ '/' :: (o ++ '/' :: (r ++ '/' :: ("releases".toList ++
          '/' :: ("download".toList ++ '/' :: (t ++ '/' :: f))))) := by
      have h8 : (8 : Nat) = httpsMarker.length := rfl
      rw [h8, List.drop_left]
    have hgh : ∀ c ∈ "github.com".toList, notSlashQH c = true := by decide
    have hnet : ("github.com".toList ++ '/' :: (o ++ '/' :: (r ++ '/' ::
        ("releases".toList ++ '/' :: ("download".toList ++ '/' ::
          (t ++ '/' :: f)))))).takeWhile notSlashQH = "github.com".toList := by
      rw [takeWhile_append_of_all hgh]
      simp [List.takeWhile_cons, notSlashQH]
    have hafter : ("github.com".toList ++ '/' :: (o ++ '/' :: (r ++ '/' ::
        ("releases".toList ++ '/' :: ("download".toList ++ '/' ::
          (t ++ '/' :: f)))))).dropWhile notSlashQH =
        '/' :: (o ++ '/' :: (r ++ '/' :: ("releases".toList ++ '/' ::
          ("download".toList ++ '/' :: (t ++ '/' :: f))))) := by
      rw [dropWhile_append_of_all hgh]
      simp [List.dropWhile_cons, notSlashQH]
    have hrelQH : ∀ c ∈ "releases".toList, notQH c = true := by decide
    have hdlQH : ∀ c ∈ "download".toList, notQH c = true := by decide
    have hallQH : ∀ c ∈ '/' :: (o ++ '/' :: (r ++ '/' :: ("releases".toList ++ '/' ::
        ("download".toList ++ '/' :: (t ++ '/' :: f))))), notQH c = true := by
      intro c hc
      simp only [List.mem_cons, List.mem_append] at hc
      rcases hc with rfl | hc
      · decide
      rcases hc with hc | hc
      · exact notQH_of_notSlashQH (hO.1 c hc)
      rcases hc with rfl | hc
      · decide
      rcases hc with hc | hc
      · exact notQH_of_notSlashQH (hR.1 c hc)
      rcases hc with rfl | hc
      · decide
      rcases hc with hc | hc
      · exact hrelQH c hc
      rcases hc with rfl | hc
      · decide
      rcases hc with hc | hc
      · exact hdlQH c hc
      rcases hc with rfl | hc
      · decide
      rcases hc with hc | hc
      · exact notQH_of_notSlashQH (hT.1 c hc)
      rcases hc with rfl | hc
      · decide
      · exact notQH_of_notSlashQH (hF.1 c hc)
    have hpath : ('/' :: (o ++ '/' :: (r ++ '/' :: ("releases".toList ++ '/' ::
        ("download".toList ++ '/' :: (t ++ '/' :: f)))))).takeWhile notQH =
        '/' :: (o ++ '/' :: (r ++ '/' :: ("releases".toList ++ '/' ::
          ("download".toList ++ '/' :: (t ++ '/' :: f))))) :=
      takeWhile_all hallQH
    have hOs : '/' ∉ o := slash_not_mem_of_segOk hO.1
    have hRs : '/' ∉ r := slash_not_mem_of_segOk hR.1
    have hTs : '/' ∉ t := slash_not_mem_of_segOk hT.1
    have hFs : '/' ∉ f := slash_not_mem_of_segOk hF.1
    have hrelS : '/' ∉ "releases".toList := by decide
    have hdlS : '/' ∉ "download".toList := by decide
    have hsplit : pySplit '/' ('/' :: (o ++ '/' :: (r ++ '/' :: ("releases".toList ++ '/' ::
        ("download".toList ++ '/' :: (t ++ '/' :: f)))))) =
        [[], o, r, "releases".toList, "download".toList, t, f] := by
      have hstep : pySplit '/' ('/' :: (o ++ '/' :: (r ++ '/' :: ("releases".toList ++ '/' ::
          ("download".toList ++ '/' :: (t ++ '/' :: f)))))) =
          [] :: pySplit '/' (o ++ '/' :: (r ++ '/' :: ("releases".toList ++ '/' ::
            ("download".toList ++ '/' :: (t ++ '/' :: f))))) := by
        simp [pySplit]
      rw [hstep, pySplit_sep_append hOs, pySplit_sep_append hRs,
          pySplit_sep_append hrelS, pySplit_sep_append hdlS,
          pySplit_sep_append hTs, pySplit_no_sep hFs]
    have hsnp : splitNetlocPath ("github.com".toList ++ '/' :: (o ++ '/' :: (r ++ '/' ::
        ("releases".toList ++ '/' :: ("download".toList ++ '/' ::
          (t ++ '/' :: f)))))) =
        ("github.com".toList, '/' :: (o ++ '/' :: (r ++ '/' :: ("releases".toList ++
          '/' :: ("download".toList ++ '/' :: (t ++ '/' :: f)))))) := by
      simp only [splitNetlocPath]
      rw [hnet, hafter, hpath]
    simp only [get_url_data]
    rw [if_pos hpre, hdrop, hsnp, if_pos rfl]
    show ghPathParse (pySplit '/' ('/' :: (o ++ '/' :: (r ++ '/' ::
        ("releases".toList ++ '/' :: ("download".toList ++ '/' ::
          (t ++ '/' :: f))))))) = some ⟨o, r, "latest".toList, f, t⟩
    rw [hsplit]
    exact ghPathParse_seven hO.2 hR.2 hF.2
  · -- rejection
    intro url hpre
    constructor
    · intro hnet
      simp only [get_url_data]
      rw [if_pos hpre, if_neg hnet]
    · intro hlen
      simp only [get_url_data]
      rw [if_pos hpre]
      by_cases hnl : (splitNetlocPath (url.drop 8)).1 = "github.com".toList
      · rw [if_pos hnl]
        simp only [ghPathParse]
        rw [dif_neg hlen]
      · rw [if_neg hnl]

/-- Witness for C5: a real release-asset URL parses to its fields, and a
non-github host is rejected. -/
theorem github_url_parse_witness :
    get_url_data
        "https://github.com/probono/AppImages/releases/download/v1.0/app.AppImage".toList =
      some ⟨"probono".toList, "AppImages".toList, "latest".toList,
        "app.AppImage".toList, "v1.0".toList⟩ ∧
    get_url_data "https://gitlab.com/a/b/releases/download/t/f".toList = none := by
  constructor
  · exact github_url_parse.2.1 "probono".toList "AppImages".toList "v1.0".toList
      "app.AppImage".toList (by constructor <;> decide) (by constructor <;> decide)
      (by constructor <;> decide) (by constructor <;> decide)
  · exact (github_url_parse.2.2 "https://gitlab.com/a/b/releases/download/t/f".toList
      (by decide)).1 (by decide)

/-- C1 counterexample: the progress loop advances `status` by the fixed
block size 1024 instead of the real chunk length, so with an advertised
`content-length` of 500 and a single 500-byte chunk the only callback
value is `1024/500 > 1`, outside the claimed `[0,1]` range. -/
theorem download_progress_exceeds_one :
    (download ⟨some 500, none⟩ [] [500]).1 = [(1024 : ℚ) / 500] ∧
    (1 : ℚ) < (1024 : ℚ) / 500 := by
  constructor
  · show dlCallbacks 500 [500] 0 = [(1024 : ℚ) / 500]
    rw [dlCallbacks]
    rw [if_neg (by decide)]
    norm_num
    rfl
  · norm_num

/-- C1 (amended): the callback fires exactly once per chunk when a
non-zero `content-length` was advertised (never otherwise), with the
`k`-th value `(k+1)·1024 / total` — positive and monotonically
non-decreasing, but exceeding 1 whenever `status` overshoots the total;
the values stay within `[0,1]` when `chunkCount·1024 ≤ total`. -/
theorem download_progress_amended (cl : Option Nat) (etag : Option (List Char))
    (fname : List Char) (chunks : List Nat) :
    (cl.getD 0 = 0 → (download ⟨cl, etag⟩ fname chunks).1 = []) ∧
    (cl.getD 0 ≠ 0 →
      (download ⟨cl, etag⟩ fname chunks).1 =
        (List.range chunks.length).map
          (fun k : Nat => (((k : ℚ) + 1) * 1024) / (cl.getD 0 : ℚ))) ∧
    (cl.getD 0 ≠ 0 → (download ⟨cl, etag⟩ fname chunks).1.length = chunks.length) ∧
    List.Pairwise (· ≤ ·) (download ⟨cl, etag⟩ fname chunks).1 ∧
    (∀ q ∈ (download ⟨cl, etag⟩ fname chunks).1, 0 < q) ∧
    (chunks.length * 1024 ≤ cl.getD 0 →
      ∀ q ∈ (download ⟨cl, etag⟩ fname chunks).1, q ≤ 1) := by
  have hfst : (download ⟨cl, etag⟩ fname chunks).1 = dlCallbacks (cl.getD 0) chunks 0 := rfl
  by_cases ht : cl.getD 0 = 0
  · have hz : dlCallbacks (cl.getD 0) chunks 0 = [] := by
      rw [ht]; exact dlCallbacks_total_zero chunks 0
    rw [hfst, hz]
    refine ⟨fun _ => rfl, fun hne => absurd ht hne, fun hne => absurd ht hne,
      List.Pairwise.nil, ?_, ?_⟩
    · intro q hq; simp at hq
    · intro _ q hq; simp at hq
  · have hclosed : dlCallbacks (cl.getD 0) chunks 0 =
        (List.range chunks.length).map
          (fun k : Nat => (((k : ℚ) + 1) * 1024) / (cl.getD 0 : ℚ)) := by
      have h := dlCallbacks_closed ht chunks 0
      simpa using h
    have htpos : (0 : ℚ) < (cl.getD 0 : ℚ) := by
      exact_mod_cast Nat.pos_of_ne_zero ht
    rw [hfst, hclosed]
    refine ⟨fun h0 => absurd h0 ht, fun _ => rfl, fun _ => by simp, ?_, ?_, ?_⟩
    · refine (List.pairwise_lt_range _).map _ ?_
      intro a b hab
      have hc : (a : ℚ) ≤ (b : ℚ) := by exact_mod_cast Nat.le_of_lt hab
      have hnum : ((a : ℚ) + 1) * 1024 ≤ ((b : ℚ) + 1) * 1024 := by nlinarith
      exact (div_le_div_iff_of_pos_right htpos).mpr hnum
    · intro q hq
      rw [List.mem_map] at hq
      obtain ⟨k, _, rfl⟩ := hq
      positivity
    · intro hle q hq
      rw [List.mem_map] at hq
      obtain ⟨k, hk, rfl⟩ := hq
      rw [List.mem_range] at hk
      rw [div_le_one htpos]
      have h1 : (k + 1) * 1024 ≤ chunks.length * 1024 :=
        Nat.mul_le_mul_right _ (Nat.succ_le_of_lt hk)
      have h2 : (k + 1) * 1024 ≤ cl.getD 0 := le_trans h1 hle
      calc ((k : ℚ) + 1) * 1024 = (((k + 1) * 1024 : Nat) : ℚ) := by push_cast; ring
        _ ≤ (cl.getD 0 : ℚ) := by exact_mod_cast h2

/-- Witness for C1: two full 1024-byte chunks against
`content-length = 2048` give the closed-form callback sequence. -/
theorem download_progress_amended_witness :
    (download ⟨some 2048, none⟩ [] [1024, 1024]).1 =
      (List.range 2).map (fun k : Nat => (((k : ℚ) + 1) * 1024) / (2048 : ℚ)) := by
  have h := (download_progress_amended (some 2048) none [] [1024, 1024]).2.1 (by decide)
  simpa using h

/-- C7: `check_url` narrows to the forced variant when one is given; a
recovered embedded descriptor accepted by some candidate wins over the
raw URL and is returned from the first accepting variant with
`embedded = true`; only otherwise is the raw URL tried in candidate
order; `None` when nothing matches. -/
theorem check_url_dispatch (canHandle : Variant → List Char → Bool)
    (url embeddedData : Option (List Char)) (forced : Option Variant) :
    (∀ v, modelsFor (some v) = [v]) ∧
    (∀ v p, forced = some v →
       check_url canHandle url embeddedData forced = some p → p.1 = v) ∧
    (∀ d m, embeddedData = some d →
       (modelsFor forced).find? (fun x => canHandle x d) = some m →
       check_url canHandle url embeddedData forced = some (m, d, true)) ∧
    (∀ u, url = some u →
       (embeddedData = none ∨ ∃ d, embeddedData = some d ∧
          (modelsFor forced).find? (fun x => canHandle x d) = none) →
       check_url canHandle url embeddedData forced =
         ((modelsFor forced).find? (fun x => canHandle x u)).map (fun m => (m, u, false))) ∧
    (((∀ d, embeddedData = some d →
         (modelsFor forced).find? (fun x => canHandle x d) = none) ∧
      (∀ u, url = some u →
         (modelsFor forced).find? (fun x => canHandle x u) = none)) →
      check_url canHandle url embeddedData forced = none) := by
  refine ⟨?_, ?_, ?_, ?_, ?_⟩
  · intro v; cases v <;> rfl
  · rintro v p rfl hp
    have hv : ∀ m, m ∈ modelsFor (some v) → m = v := by
      intro m hm
      rcases v <;> simpa [modelsFor, allModels] using hm
    cases hed : embeddedData with
    | some d =>
      cases hfd : (modelsFor (some v)).find? (fun x => canHandle x d) with
      | some m =>
        have : check_url canHandle url (some d) (some v) = some (m, d, true) := by
          simp [check_url, hfd]
        rw [hed] at hp
        rw [this] at hp
        cases hp
        exact hv m (List.mem_of_find?_eq_some hfd)
      | none =>
        cases hu : url with
        | some u =>
          cases hfu : (modelsFor (some v)).find? (fun x => canHandle x u) with
          | some m =>
            have : check_url canHandle (some u) (some d) (some v) = some (m, u, false) := by
              simp [check_url, hfd, hfu]
            rw [hed, hu] at hp
            rw [this] at hp
            cases hp
            exact hv m (List.mem_of_find?_eq_some hfu)
          | none =>
            rw [hed, hu] at hp
            simp [check_url, hfd, hfu] at hp
        | none =>
          rw [hed, hu] at hp
          simp [check_url, hfd] at hp
    | none =>
      cases hu : url with
      | some u =>
        cases hfu : (modelsFor (some v)).find? (fun x => canHandle x u) with
        | some m =>
          have : check_url canHandle (some u) none (some v) = some (m, u, false) := by
            simp [check_url, hfu]
          rw [hed, hu] at hp
          rw [this] at hp
          cases hp
          exact hv m (List.mem_of_find?_eq_some hfu)
        | none =>
          rw [hed, hu] at hp
          simp [check_url, hfu] at hp
      | none =>
        rw [hed, hu] at hp
        simp [check_url] at hp
  · rintro d m rfl hfd
    simp [check_url, hfd]
  · rintro u rfl hcase
    rcases hcase with rfl | ⟨d, rfl, hfd⟩
    · simp [check_url]
    · simp [check_url, hfd]
  · rintro ⟨hd, hu⟩
    cases hed : embeddedData with
    | some d =>
      cases huu : url with
      | some u => simp [check_url, hd d hed, hu u huu]
      | none => simp [check_url, hd d hed]
    | none =>
      cases huu : url with
      | some u => simp [check_url, hu u huu]
      | none => simp [check_url]

/-- Witness for C7: with an oracle accepting only the GitHub variant, an
embedded descriptor dispatches to GitHub in embedded mode even though a
raw URL is present. -/
theorem check_url_dispatch_witness :
    check_url (fun m _ => m = Variant.github) (some ['u']) (some ['d']) none =
      some (Variant.github, ['d'], true) := by
  exact (check_url_dispatch (fun m _ => m = Variant.github)
    (some ['u']) (some ['d']) none).2.2.1 ['d'] Variant.github rfl (by decide)

/-- C8: after glob filtering, a unique candidate is selected directly;
with several candidates on an `x86_64` system the first one carrying a
bounded x86 marker or carrying no bounded ARM marker is selected; with
zero candidates, or when no disambiguation succeeds, resolution yields
`None`. -/
theorem github_asset_disambiguation (ud : GhUrlData) (relTag : List Char)
    (assets : List Asset) (embedded : Bool) (arch : List Char)
    (htag : globMatch ud.tag_name relTag = true) :
    (∀ a, possibleTargets assets embedded ud.filename = [a] →
       selectTarget (possibleTargets assets embedded ud.filename) arch = some a) ∧
    (2 ≤ (possibleTargets assets embedded ud.filename).length →
       arch = "x86_64".toList →
       selectTarget (possibleTargets assets embedded ud.filename) arch =
         (possibleTargets assets embedded ud.filename).find?
           (fun t => isX86Name t.name || !(isArmName t.name))) ∧
    (possibleTargets assets embedded ud.filename = [] →
       fetch_target_asset ud relTag assets embedded arch = none) ∧
    (selectTarget (possibleTargets assets embedded ud.filename) arch = none →
       fetch_target_asset ud relTag assets embedded arch = none) := by
  refine ⟨?_, ?_, ?_, ?_⟩
  · intro a ha
    rw [ha]
    simp [selectTarget]
  · intro hlen harch
    have h1 : (possibleTargets assets embedded ud.filename).length ≠ 1 := by omega
    rw [selectTarget, if_neg h1, if_pos harch]
  · intro ha
    have hsel : selectTarget (possibleTargets assets embedded ud.filename) arch = none := by
      rw [ha]
      simp [selectTarget]
    simp [fetch_target_asset, htag, hsel]
  · intro hsel
    simp [fetch_target_asset, htag, hsel]

/-- Witness for C8: on `x86_64`, between `app-x86_64.AppImage` and
`app-arm64.AppImage` the x86 asset wins and resolution returns it. -/
theorem github_asset_disambiguation_witness :
    fetch_target_asset ⟨['o'], ['r'], "latest".toList, "app-*.AppImage".toList, ['*']⟩
        "v1".toList
        [⟨"app-x86_64.AppImage".toList, ['u'], 1, 10, "raw".toList⟩,
         ⟨"app-arm64.AppImage".toList, ['w'], 2, 11, "raw".toList⟩]
        false "x86_64".toList =
      some ⟨"app-x86_64.AppImage".toList, ['u'], 1, 10, "raw".toList⟩ ∧
    selectTarget (possibleTargets
        [⟨"app-x86_64.AppImage".toList, ['u'], 1, 10, "raw".toList⟩,
         ⟨"app-arm64.AppImage".toList, ['w'], 2, 11, "raw".toList⟩]
        false "app-*.AppImage".toList) "x86_64".toList =
      (possibleTargets
        [⟨"app-x86_64.AppImage".toList, ['u'], 1, 10, "raw".toList⟩,
         ⟨"app-arm64.AppImage".toList, ['w'], 2, 11, "raw".toList⟩]
        false "app-*.AppImage".toList).find?
          (fun t => isX86Name t.name || !(isArmName t.name)) := by
  constructor
  · decide
  · exact (github_asset_disambiguation
      ⟨['o'], ['r'], "latest".toList, "app-*.AppImage".toList, ['*']⟩ "v1".toList
      [⟨"app-x86_64.AppImage".toList, ['u'], 1, 10, "raw".toList⟩,
       ⟨"app-arm64.AppImage".toList, ['w'], 2, 11, "raw".toList⟩]
      false "x86_64".toList (by decide)).2.1 (by decide) rfl

/-- C4 counterexample: the static-URL pattern `^zsync\|http(.*)\s` is
greedy, so the match runs to the last whitespace of the flattened dump,
not to the next one: trailing content after the URL is kept in the
result instead of being cut at the first whitespace. -/
theorem check_app_greedy_counterexample :
    check_app "zsync|https://x/y.bin junk".toList =
      some "https://x/y.bin junk".toList ∧
    ("https://x/y.bin junk".toList : List Char) ≠ "https://x/y.bin".toList := by
  exact ⟨by decide, by decide⟩

/-- C4 (amended): on the flattened dump (newlines to spaces, one space
appended), the extractor first returns the slice from the leftmost
`gh-releases-zsync|` occurrence to the greedy, rightmost
any-character-plus-`zsync` ending at distance `≥ 19`, trimmed; otherwise,
only when the flattened dump itself starts with `zsync|http`, it returns
everything after the 6-character `zsync|` prefix — up to the last
whitespace, i.e. the whole remaining dump — trimmed; otherwise `None`. -/
theorem check_app_amended (dump : List Char) :
    (∀ i p,
       occursAt ghLit (flattenDump dump) i = true →
       (∀ j, j < i → occursAt ghLit (flattenDump dump) j = false) →
       occursAt zsyncLit (flattenDump dump) p = true →
       i + 19 ≤ p →
       (∀ q, q < (flattenDump dump).length → p < q →
          (decide (i + 19 ≤ q) && occursAt zsyncLit (flattenDump dump) q) = false) →
       check_app dump = some (pyStrip (((flattenDump dump).take (p + 5)).drop i))) ∧
    ((∀ j, j < (flattenDump dump).length → occursAt ghLit (flattenDump dump) j = false) →
       "zsync|http".toList.isPrefixOf (flattenDump dump) = true →
       check_app dump = some (pyStrip ((flattenDump dump).drop 6))) ∧
    ((∀ j, j < (flattenDump dump).length → occursAt ghLit (flattenDump dump) j = false) →
       "zsync|http".toList.isPrefixOf (flattenDump dump) = false →
       check_app dump = none) := by
  have hlen : (flattenDump dump).length = dump.length + 1 := by
    simp [flattenDump]
  have hlastc : (flattenDump dump).getD dump.length 'x' = ' ' := by
    have h1 := getD_append_singleton (dump.map (fun c => if c = '\n' then ' ' else c)) ' '
    rw [List.length_map] at h1
    exact h1
  refine ⟨?_, ?_, ?_⟩
  · intro i p hi himin hp hip hpmax
    have hilt : i < (flattenDump dump).length := occursAt_lt (by decide) hi
    have hplt : p < (flattenDump dump).length := occursAt_lt (by decide) hp
    have hfirst : findFirstIdx (fun j => occursAt ghLit (flattenDump dump) j)
        ((flattenDump dump).length) = some i :=
      findFirstIdx_eq_some hilt hi himin
    have hlast : findLastBelow
        (fun q => decide (i + 19 ≤ q) && occursAt zsyncLit (flattenDump dump) q)
        ((flattenDump dump).length) = some p :=
      findLastBelow_eq_some hplt (by simp [hp, hip]) hpmax
    simp only [check_app, hfirst, hlast]
  · intro hnogh hpre
    have hfirst : findFirstIdx (fun j => occursAt ghLit (flattenDump dump) j)
        ((flattenDump dump).length) = none :=
      findFirstIdx_eq_none hnogh
    have hd10 : 10 ≤ dump.length := by
      have hge : 10 ≤ (flattenDump dump).length := by
        have := length_le_of_isPrefixOf hpre
        simpa using this
      by_contra hlt
      push_neg at hlt
      have h9 : dump.length = 9 := by omega
      have hchar : (flattenDump dump).getD 9 'x' = 'p' := by
        have h := isPrefixOf_getD hpre 9 (by decide)
        rw [h]
        decide
      rw [← h9] at hchar
      rw [hlastc] at hchar
      exact absurd hchar (by decide)
    have hpredlast : (fun m => decide (10 ≤ m) &&
        isPySpace ((flattenDump dump).getD m 'x')) dump.length = true := by
      simp only [hlastc]
      simp [hd10, isPySpace]
    have hlast : findLastBelow
        (fun m => decide (10 ≤ m) && isPySpace ((flattenDump dump).getD m 'x'))
        ((flattenDump dump).length) = some dump.length := by
      refine findLastBelow_eq_some (by omega) hpredlast ?_
      intro j hj hij
      rw [hlen] at hj
      omega
    have htake : (flattenDump dump).take (dump.length + 1) = flattenDump dump := by
      rw [← hlen]
      exact List.take_length (flattenDump dump)
    simp only [check_app, hfirst]
    rw [if_pos hpre]
    simp only [hlast, htake]
  · intro hnogh hnpre
    have hfirst : findFirstIdx (fun j => occursAt ghLit (flattenDump dump) j)
        ((flattenDump dump).length) = none :=
      findFirstIdx_eq_none hnogh
    simp only [check_app, hfirst]
    rw [if_neg (by rw [hnpre]; exact Bool.false_ne_true)]

/-- Witness for C4: the spec's own gh-releases example, resolved through
the amended theorem at the leftmost literal occurrence (index 6) and the
greedy zsync ending (index 61). -/
theorem check_app_amended_witness :
    check_app "zsync|gh-releases-zsync|acme|widget|latest|widget-x.AppImage.zsync".toList =
      some "gh-releases-zsync|acme|widget|latest|widget-x.AppImage.zsync".toList := by
  have h := (check_app_amended
    "zsync|gh-releases-zsync|acme|widget|latest|widget-x.AppImage.zsync".toList).1
    6 61 (by decide) (by decide) (by decide) (by decide) (by decide)
  exact h.trans (by decide)

end UpdateManagerModel
